import Mathlib

/-!
Verification development for the CL1 encrypted statistics store and the
scheduling helpers of this repository.

The CL1 store itself (`module/statistics/cl1_database.py`, class `Cl1Database`)
is exercised by the in-repo verification script `cl1_secure_verify.py`; the
store's data model, codec, crypto engine and facade are modelled here from the
specification (see the `Modelled from the spec:` doc comments).  The scheduling
helpers `_parse_bool_flag` (`module/os/tasks/smart_scheduling_utils.py`) and
`CoinTaskMixin._try_other_coin_tasks` (`module/os/tasks/coin_task_mixin.py`)
are embedded directly from their source.
-/

/-! ## Data model of the CL1 store -/

/-- Modelled from the spec: one itemized AP entry `{amount, base, count,
source, timestamp}` of a `StatsRecord` (`cl1_database.py` is not under the
available sources; layout follows spec section 3). -/
structure StatsEntry where
  amount : Nat
  base : Nat
  count : Nat
  source : String
  timestamp : Nat
deriving DecidableEq, Repr

/-- Modelled from the spec: the plaintext statistics record, one per
(instance, month): a battle counter, an AP accumulator and the ordered,
append-only entry list. -/
structure StatsRecord where
  battle_count : Nat
  akashi_ap : Nat
  akashi_ap_entries : List StatsEntry
deriving DecidableEq, Repr

/-- Modelled from the spec: `empty()` — the zero-valued record used both as
the fail-closed default and as the seed for a never-before-seen key. -/
def StatsRecord.empty : StatsRecord :=
  { battle_count := 0, akashi_ap := 0, akashi_ap_entries := [] }

/-! ## Codec: deterministic byte serialization

Bytes are modelled as natural numbers.  A natural number is serialized as a
digit-count byte followed by its little-endian base-256 digits; strings as a
character count followed by the code point of each character. -/

/-- Little-endian base-256 digits of `n`; the first argument is fuel (always
called with fuel `n`, which suffices since dividing by 256 strictly
decreases). -/
def natToBytesAux : Nat → Nat → List Nat
  | 0, _ => []
  | _ + 1, 0 => []
  | fuel + 1, n + 1 => ((n + 1) % 256) :: natToBytesAux fuel ((n + 1) / 256)

/-- Little-endian base-256 digits of `n` (empty for 0). -/
def natToBytes (n : Nat) : List Nat :=
  natToBytesAux n n

/-- Reassemble a natural number from little-endian base-256 digits. -/
def natOfBytes (bs : List Nat) : Nat :=
  bs.foldr (fun b a => b + 256 * a) 0

/-- Serialize a natural number: digit count, then the digits. -/
def encodeNat (n : Nat) : List Nat :=
  (natToBytes n).length :: natToBytes n

/-- Parse a serialized natural number, returning it and the unread rest. -/
def readNat : List Nat → Option (Nat × List Nat)
  | [] => none
  | k :: rest =>
    if k ≤ rest.length then some (natOfBytes (rest.take k), rest.drop k) else none

theorem natToBytesAux_spec : ∀ (fuel n : Nat), n ≤ fuel →
    natOfBytes (natToBytesAux fuel n) = n := by
  intro fuel
  induction fuel with
  | zero =>
    intro n hn
    interval_cases n
    rfl
  | succ f ih =>
    intro n hn
    match n with
    | 0 => rfl
    | m + 1 =>
      have hdiv : (m + 1) / 256 ≤ f := by
        have h1 : (m + 1) / 256 < m + 1 := Nat.div_lt_self (Nat.succ_pos m) (by omega)
        omega
      show natOfBytes (((m + 1) % 256) :: natToBytesAux f ((m + 1) / 256)) = m + 1
      show (m + 1) % 256 + 256 * natOfBytes (natToBytesAux f ((m + 1) / 256)) = m + 1
      rw [ih _ hdiv, Nat.mod_add_div]

theorem natOfBytes_natToBytes (n : Nat) : natOfBytes (natToBytes n) = n :=
  natToBytesAux_spec n n (Nat.le_refl n)

theorem readNat_encodeNat (n : Nat) (tl : List Nat) :
    readNat (encodeNat n ++ tl) = some (n, tl) := by
  show readNat ((natToBytes n).length :: (natToBytes n ++ tl)) = some (n, tl)
  have hle : (natToBytes n).length ≤ (natToBytes n ++ tl).length := by
    rw [List.length_append]; omega
  simp only [readNat, if_pos hle]
  rw [List.take_left, List.drop_left, natOfBytes_natToBytes]

/-- Serialize a character list: the code point of each character in order,
each as a serialized natural number. -/
def encodeChars (cs : List Char) : List Nat :=
  cs.foldr (fun c acc => encodeNat c.toNat ++ acc) []

/-- Parse `n` serialized characters, returning them and the unread rest. -/
def readChars : Nat → List Nat → Option (List Char × List Nat)
  | 0, bs => some ([], bs)
  | n + 1, bs =>
    match readNat bs with
    | none => none
    | some (c, rest) =>
      match readChars n rest with
      | none => none
      | some (cs, rest2) => some (Char.ofNat c :: cs, rest2)

theorem readChars_encodeChars : ∀ (cs : List Char) (tl : List Nat),
    readChars cs.length (encodeChars cs ++ tl) = some (cs, tl) := by
  intro cs
  induction cs with
  | nil => intro tl; rfl
  | cons c cs ih =>
    intro tl
    show readChars (cs.length + 1) ((encodeNat c.toNat ++ encodeChars cs) ++ tl) =
      some (c :: cs, tl)
    rw [List.append_assoc]
    simp only [readChars, readNat_encodeNat, ih, Char.ofNat_toNat]

/-- Modelled from the spec: serialization of one entry — the three counters,
then the source string (length-prefixed), then the timestamp. -/
def encodeEntry (e : StatsEntry) : List Nat :=
  encodeNat e.amount ++ encodeNat e.base ++ encodeNat e.count ++
    encodeNat e.source.data.length ++ encodeChars e.source.data ++
    encodeNat e.timestamp

/-- Parse one serialized entry, returning it and the unread rest. -/
def readEntry (bs : List Nat) : Option (StatsEntry × List Nat) :=
  match readNat bs with
  | none => none
  | some (amount, bs1) =>
    match readNat bs1 with
    | none => none
    | some (base, bs2) =>
      match readNat bs2 with
      | none => none
      | some (cnt, bs3) =>
        match readNat bs3 with
        | none => none
        | some (slen, bs4) =>
          match readChars slen bs4 with
          | none => none
          | some (cs, bs5) =>
            match readNat bs5 with
            | none => none
            | some (ts, bs6) =>
              some ({ amount := amount, base := base, count := cnt,
                      source := String.mk cs, timestamp := ts }, bs6)

theorem readEntry_encodeEntry (e : StatsEntry) (tl : List Nat) :
    readEntry (encodeEntry e ++ tl) = some (e, tl) := by
  show readEntry (((((encodeNat e.amount ++ encodeNat e.base) ++ encodeNat e.count) ++
    encodeNat e.source.data.length) ++ encodeChars e.source.data) ++
    encodeNat e.timestamp ++ tl) = some (e, tl)
  simp only [List.append_assoc]
  simp only [readEntry, readNat_encodeNat, readChars_encodeChars]

/-- Modelled from the spec: serialization of the ordered entry sequence. -/
def encodeEntries (es : List StatsEntry) : List Nat :=
  es.foldr (fun e acc => encodeEntry e ++ acc) []

/-- Parse `n` serialized entries, returning them and the unread rest. -/
def readEntries : Nat → List Nat → Option (List StatsEntry × List Nat)
  | 0, bs => some ([], bs)
  | n + 1, bs =>
    match readEntry bs with
    | none => none
    | some (e, rest) =>
      match readEntries n rest with
      | none => none
      | some (es, rest2) => some (e :: es, rest2)

theorem readEntries_encodeEntries : ∀ (es : List StatsEntry) (tl : List Nat),
    readEntries es.length (encodeEntries es ++ tl) = some (es, tl) := by
  intro es
  induction es with
  | nil => intro tl; rfl
  | cons e es ih =>
    intro tl
    show readEntries (es.length + 1) ((encodeEntry e ++ encodeEntries es) ++ tl) =
      some (e :: es, tl)
    rw [List.append_assoc]
    simp only [readEntries, readEntry_encodeEntry, ih]

/-- Modelled from the spec: `encode(StatsRecord) -> bytes` — deterministic
serialization of the counters and the ordered entry sequence. -/
def encodeRecord (r : StatsRecord) : List Nat :=
  encodeNat r.battle_count ++ encodeNat r.akashi_ap ++
    encodeNat r.akashi_ap_entries.length ++ encodeEntries r.akashi_ap_entries

/-- Modelled from the spec: `decode(bytes) -> StatsRecord`, `none` playing the
role of `MalformedRecord` when the byte layout is structurally invalid. -/
def decodeRecord (bs : List Nat) : Option StatsRecord :=
  match readNat bs with
  | none => none
  | some (bc, bs1) =>
    match readNat bs1 with
    | none => none
    | some (ap, bs2) =>
      match readNat bs2 with
      | none => none
      | some (n, bs3) =>
        match readEntries n bs3 with
        | none => none
        | some (es, rest) =>
          match rest with
          | [] => some { battle_count := bc, akashi_ap := ap, akashi_ap_entries := es }
          | _ :: _ => none

theorem decodeRecord_encodeRecord (r : StatsRecord) :
    decodeRecord (encodeRecord r) = some r := by
  have h : encodeRecord r = encodeNat r.battle_count ++ (encodeNat r.akashi_ap ++
      (encodeNat r.akashi_ap_entries.length ++ (encodeEntries r.akashi_ap_entries ++ []))) := by
    simp [encodeRecord, List.append_assoc]
  rw [decodeRecord.eq_def, h]
  simp only [readNat_encodeNat, readEntries_encodeEntries]

/-! ## Crypto engine

Modelled from the spec: an idealized authenticated-encryption transform.  The
blob is `header ++ ciphertext ++ tag`: a fixed 32-byte header carrying the
per-write nonce material, the plaintext masked by a key/nonce-dependent
keystream, and a full-length authentication tag (the ciphertext masked by the
keystream at shifted positions).  Verification recomputes the tag and rejects
on any mismatch before releasing plaintext. -/

/-- Modelled from the spec: the fixed master secret from which per-instance
keys are derived. -/
def MASTER_SECRET : Nat := 0x746865616c6173

/-- Modelled from the spec: `derive_key(instance)` — deterministic
per-instance key derivation from the master secret and the instance
identifier. -/
def derive_key (inst : String) : Nat :=
  inst.data.foldl (fun a c => (a * 131 + c.toNat + 1) % 1000000007) MASTER_SECRET

/-- Modelled from the spec: the 32-byte header holding the per-write
salt/nonce material (little-endian bytes of the nonce). -/
def nonceHeader (nonce : Nat) : List Nat :=
  (List.range 32).map (fun i => nonce / 256 ^ i % 256)

/-- Numeric value folded from header bytes, used to mix the header into the
keystream. -/
def headerVal (header : List Nat) : Nat :=
  header.foldl (fun a b => a * 256 + b) 0

/-- Keystream byte at position `i` for a given key and header. -/
def ksByte (key : Nat) (header : List Nat) (i : Nat) : Nat :=
  (key * 1000003 + headerVal header * 65537 + i * 131 + 17) % 256

/-- Mask (or unmask) a byte sequence with the keystream, starting at
keystream position `off`. -/
def maskBytes (key : Nat) (header : List Nat) : Nat → List Nat → List Nat
  | _, [] => []
  | off, b :: bs => (b ^^^ ksByte key header off) :: maskBytes key header (off + 1) bs

/-- Modelled from the spec: `encrypt(key, plaintext) -> header ‖ ciphertext ‖
tag` under the nonce of this write. -/
def encryptBlob (key nonce : Nat) (pt : List Nat) : List Nat :=
  let header := nonceHeader nonce
  let ct := maskBytes key header 0 pt
  header ++ ct ++ maskBytes key header ct.length ct

/-- Modelled from the spec: `decrypt(key, blob)` — parse the header, verify
the authentication tag, and release the plaintext only on success (`none`
playing the role of `AuthenticationFailure`). -/
def decryptBlob (key : Nat) (blob : List Nat) : Option (List Nat) :=
  if blob.length < 32 then none
  else
    let header := blob.take 32
    let body := blob.drop 32
    if body.length % 2 = 0 then
      let L := body.length / 2
      let ct := body.take L
      let tag := body.drop L
      if tag = maskBytes key header L ct then some (maskBytes key header 0 ct)
      else none
    else none

theorem length_maskBytes (key : Nat) (header : List Nat) :
    ∀ (off : Nat) (bs : List Nat), (maskBytes key header off bs).length = bs.length := by
  intro off bs
  induction bs generalizing off with
  | nil => rfl
  | cons b bs ih => simp [maskBytes, ih]

theorem xor_xor_cancel (b x : Nat) : b ^^^ x ^^^ x = b := by
  rw [Nat.xor_assoc, Nat.xor_self, Nat.xor_zero]

theorem maskBytes_maskBytes (key : Nat) (header : List Nat) :
    ∀ (off : Nat) (bs : List Nat),
      maskBytes key header off (maskBytes key header off bs) = bs := by
  intro off bs
  induction bs generalizing off with
  | nil => rfl
  | cons b bs ih => simp [maskBytes, ih, xor_xor_cancel]

theorem maskBytes_inj (key : Nat) (header : List Nat) (off : Nat)
    (bs1 bs2 : List Nat) (h : maskBytes key header off bs1 = maskBytes key header off bs2) :
    bs1 = bs2 := by
  have := congrArg (maskBytes key header off) h
  rwa [maskBytes_maskBytes, maskBytes_maskBytes] at this

theorem length_nonceHeader (nonce : Nat) : (nonceHeader nonce).length = 32 := by
  simp [nonceHeader]

theorem decryptBlob_encryptBlob (key nonce : Nat) (pt : List Nat) :
    decryptBlob key (encryptBlob key nonce pt) = some pt := by
  have hH : (nonceHeader nonce).length = 32 := length_nonceHeader nonce
  have hct : (maskBytes key (nonceHeader nonce) 0 pt).length = pt.length :=
    length_maskBytes key (nonceHeader nonce) 0 pt
  set H := nonceHeader nonce with hHdef
  set C := maskBytes key H 0 pt with hCdef
  set T := maskBytes key H C.length C with hTdef
  have hT : T.length = C.length := length_maskBytes key H C.length C
  show decryptBlob key (H ++ C ++ T) = some pt
  rw [List.append_assoc]
  have hlen : (H ++ (C ++ T)).length = 32 + (C.length + T.length) := by
    simp [List.length_append, hH]
  rw [decryptBlob.eq_def]
  rw [if_neg (by omega)]
  simp only
  rw [List.take_left' hH, List.drop_left' hH]
  have hbody : (C ++ T).length = C.length + C.length := by
    rw [List.length_append, hT]
  rw [hbody]
  have hmod : (C.length + C.length) % 2 = 0 := by omega
  rw [if_pos hmod]
  have hdiv : (C.length + C.length) / 2 = C.length := by omega
  rw [hdiv, List.take_left, List.drop_left]
  rw [if_pos rfl]
  rw [hCdef, maskBytes_maskBytes]

theorem xor_ne_self (x w : Nat) (hw : w ≠ 0) : x ^^^ w ≠ x := by
  intro h
  apply hw
  have h2 : x ^^^ (x ^^^ w) = x ^^^ x := congrArg (fun t => x ^^^ t) h
  rwa [← Nat.xor_assoc, Nat.xor_self, Nat.zero_xor] at h2

theorem set_getD_xor_ne (l : List Nat) (i w : Nat) (hi : i < l.length) (hw : w ≠ 0) :
    l.set i (l.getD i 0 ^^^ w) ≠ l := by
  intro h
  have hgd : (l.set i (l.getD i 0 ^^^ w)).getD i 0 = l.getD i 0 := by rw [h]
  have hset : (l.set i (l.getD i 0 ^^^ w)).getD i 0 = l.getD i 0 ^^^ w := by
    have hlen : i < (l.set i (l.getD i 0 ^^^ w)).length := by
      rwa [List.length_set]
    rw [List.getD_eq_getElem _ _ hlen, List.getElem_set_self]
  rw [hset] at hgd
  exact xor_ne_self (l.getD i 0) w hw hgd

theorem decryptBlob_set_ne (key nonce : Nat) (pt : List Nat) (i w : Nat)
    (h32 : 32 ≤ i) (hi : i < (encryptBlob key nonce pt).length) (hw : w ≠ 0) :
    decryptBlob key ((encryptBlob key nonce pt).set i
      ((encryptBlob key nonce pt).getD i 0 ^^^ w)) = none := by
  have hH : (nonceHeader nonce).length = 32 := length_nonceHeader nonce
  set H := nonceHeader nonce with hHdef
  set C := maskBytes key H 0 pt with hCdef
  set T := maskBytes key H C.length C with hTdef
  have hT : T.length = C.length := length_maskBytes key H C.length C
  have hblob : encryptBlob key nonce pt = H ++ (C ++ T) := by
    rw [encryptBlob.eq_def]
    rw [List.append_assoc]
  rw [hblob] at hi ⊢
  rw [List.length_append, List.length_append, hH, hT] at hi
  have hp : i - 32 < C.length + C.length := by omega
  have hgetD : (H ++ (C ++ T)).getD i 0 = (C ++ T).getD (i - 32) 0 := by
    rw [List.getD_append_right _ _ _ _ (by omega : H.length ≤ i), hH]
  have hset : ∀ v, (H ++ (C ++ T)).set i v = H ++ (C ++ T).set (i - 32) v := by
    intro v
    rw [List.set_append_right _ _ (by omega : H.length ≤ i), hH]
  rw [hgetD, hset]
  rcases Nat.lt_or_ge (i - 32) C.length with hpc | hpc
  · -- the flipped byte lands in the ciphertext region
    have hgd2 : (C ++ T).getD (i - 32) 0 = C.getD (i - 32) 0 :=
      List.getD_append _ _ _ _ hpc
    have hset2 : (C ++ T).set (i - 32) (C.getD (i - 32) 0 ^^^ w) =
        C.set (i - 32) (C.getD (i - 32) 0 ^^^ w) ++ T :=
      List.set_append_left _ _ hpc
    rw [hgd2, hset2]
    set Cw := C.set (i - 32) (C.getD (i - 32) 0 ^^^ w) with hCwdef
    have hCw : Cw.length = C.length := List.length_set C _ _
    rw [decryptBlob.eq_def]
    have hlen : (H ++ (Cw ++ T)).length = 32 + (C.length + C.length) := by
      rw [List.length_append, List.length_append, hH, hT, hCw]
    rw [if_neg (by omega)]
    simp only
    rw [List.take_left' hH, List.drop_left' hH]
    have hbody : (Cw ++ T).length = C.length + C.length := by
      rw [List.length_append, hT, hCw]
    rw [hbody]
    rw [if_pos (by omega : (C.length + C.length) % 2 = 0)]
    have hdiv : (C.length + C.length) / 2 = C.length := by omega
    rw [hdiv, List.take_left' hCw, List.drop_left' hCw]
    rw [if_neg]
    intro hcheck
    have hCC : C = Cw := maskBytes_inj key H C.length C Cw (by rw [← hTdef, hcheck])
    exact set_getD_xor_ne C (i - 32) w hpc hw hCC.symm
  · -- the flipped byte lands in the tag region
    have hq : i - 32 - C.length < T.length := by omega
    have hgd2 : (C ++ T).getD (i - 32) 0 = T.getD (i - 32 - C.length) 0 :=
      List.getD_append_right _ _ _ _ hpc
    have hset2 : (C ++ T).set (i - 32) (T.getD (i - 32 - C.length) 0 ^^^ w) =
        C ++ T.set (i - 32 - C.length) (T.getD (i - 32 - C.length) 0 ^^^ w) :=
      List.set_append_right _ _ hpc
    rw [hgd2, hset2]
    set Tw := T.set (i - 32 - C.length) (T.getD (i - 32 - C.length) 0 ^^^ w) with hTwdef
    have hTw : Tw.length = C.length := by rw [hTwdef, List.length_set, hT]
    rw [decryptBlob.eq_def]
    have hlen : (H ++ (C ++ Tw)).length = 32 + (C.length + C.length) := by
      rw [List.length_append, List.length_append, hH, hTw]
    rw [if_neg (by omega)]
    simp only
    rw [List.take_left' hH, List.drop_left' hH]
    have hbody : (C ++ Tw).length = C.length + C.length := by
      rw [List.length_append, hTw]
    rw [hbody]
    rw [if_pos (by omega : (C.length + C.length) % 2 = 0)]
    have hdiv : (C.length + C.length) / 2 = C.length := by omega
    rw [hdiv, List.take_left, List.drop_left]
    rw [if_neg]
    intro hcheck
    have : Tw = T := by rw [hcheck, hTdef]
    exact set_getD_xor_ne T (i - 32 - C.length) w hq hw this

/-! ## Store facade

Modelled from the spec: a single relational table keyed by (instance, month)
with one encrypted blob per row (composite primary key, upsert semantics),
plus a write counter supplying the fresh nonce of each write. -/

/-- Row key: (instance, month). -/
abbrev RowKey := String × String

/-- Table rows: association list from (instance, month) to the encrypted
blob, with upsert keeping at most one row per key. -/
abbrev Rows := List (RowKey × List Nat)

/-- Modelled from the spec: upsert — replace the row of an existing key in
place, or append a new row. -/
def upsertRow : Rows → RowKey → List Nat → Rows
  | [], k, b => [(k, b)]
  | (k2, b2) :: rest, k, b =>
    if k2 = k then (k, b) :: rest else (k2, b2) :: upsertRow rest k b

/-- Look up the row of a key. -/
def rowAt : Rows → RowKey → Option (List Nat)
  | [], _ => none
  | (k2, b) :: rest, k => if k2 = k then some b else rowAt rest k

/-- Modelled from the spec: the state of the store — the backing table plus
the counter from which each write draws a fresh, never-reused nonce. -/
structure Store where
  rows : Rows
  ctr : Nat

/-- Modelled from the spec: `Store(path)` right after creating an empty
schema — no rows. -/
def initStore : Store := { rows := [], ctr := 0 }

/-- Modelled from the spec: `get_stats(instance, month)` — look up the row;
absent rows, authentication failures and malformed records all yield the
fail-closed `empty()`; nothing is raised. -/
def get_stats (s : Store) (inst month : String) : StatsRecord :=
  match rowAt s.rows (inst, month) with
  | none => StatsRecord.empty
  | some blob =>
    match decryptBlob (derive_key inst) blob with
    | none => StatsRecord.empty
    | some pt =>
      match decodeRecord pt with
      | none => StatsRecord.empty
      | some r => r

/-- Modelled from the spec: the encrypt-write tail of a mutation — encode,
encrypt under the per-instance key with this write's fresh nonce, upsert,
bump the nonce counter. -/
def writeRecord (s : Store) (inst month : String) (r : StatsRecord) : Store :=
  { rows := upsertRow s.rows (inst, month)
      (encryptBlob (derive_key inst) s.ctr (encodeRecord r)),
    ctr := s.ctr + 1 }

/-- Modelled from the spec: `increment_battle_count(instance)` for the
current month — load-or-initialize, increment, persist. -/
def increment_battle_count (s : Store) (inst month : String) : Store :=
  let r := get_stats s inst month
  writeRecord s inst month { r with battle_count := r.battle_count + 1 }

/-- Modelled from the spec: `add_akashi_ap_entry(instance, amount, base,
count, source)` for the current month — load-or-initialize, append the entry
and bump the accumulator in the same cycle, persist. -/
def add_akashi_ap_entry (s : Store) (inst month : String)
    (amount base cnt : Nat) (source : String) (timestamp : Nat) : Store :=
  let r := get_stats s inst month
  writeRecord s inst month
    { r with akashi_ap := r.akashi_ap + amount,
             akashi_ap_entries := r.akashi_ap_entries ++
               [{ amount := amount, base := base, count := cnt,
                  source := source, timestamp := timestamp }] }

/-- One public mutating operation of the store, with the month the operation
implicitly targets (the current calendar month at call time) and, for entry
appends, the entry timestamp made explicit. -/
inductive Op where
  | incBattle (inst month : String)
  | addAp (inst month : String) (amount base cnt : Nat) (source : String) (timestamp : Nat)

/-- Instance a mutation runs under. -/
def Op.inst : Op → String
  | .incBattle i _ => i
  | .addAp i _ _ _ _ _ _ => i

/-- Month a mutation targets. -/
def Op.month : Op → String
  | .incBattle _ m => m
  | .addAp _ m _ _ _ _ _ => m

/-- Row key a mutation targets. -/
def Op.key (op : Op) : RowKey := (op.inst, op.month)

/-- The record a mutation persists: the read-modify result over the loaded
(or fail-closed empty) record. -/
def Op.newRecord (s : Store) : Op → StatsRecord
  | .incBattle i m =>
    let r := get_stats s i m
    { r with battle_count := r.battle_count + 1 }
  | .addAp i m amount base cnt source ts =>
    let r := get_stats s i m
    { r with akashi_ap := r.akashi_ap + amount,
             akashi_ap_entries := r.akashi_ap_entries ++
               [{ amount := amount, base := base, count := cnt,
                  source := source, timestamp := ts }] }

/-- Apply one mutation to the store. -/
def applyOp (s : Store) : Op → Store
  | .incBattle i m => increment_battle_count s i m
  | .addAp i m amount base cnt source ts =>
    add_akashi_ap_entry s i m amount base cnt source ts

/-- Run a sequence of mutations. -/
def runOps (ops : List Op) (s : Store) : Store :=
  ops.foldl applyOp s

/-- Overwrite the stored bytes of a row directly, bypassing the store — the
out-of-band tampering transition of the spec's state machine. -/
def setRowBlob (s : Store) (inst month : String) (blob : List Nat) : Store :=
  { s with rows := upsertRow s.rows (inst, month) blob }

/-- Flip bit `j` of byte `i` of a blob. -/
def flipBit (blob : List Nat) (i j : Nat) : List Nat :=
  blob.set i (blob.getD i 0 ^^^ 2 ^ j)

theorem rowAt_upsertRow_self (rows : Rows) (k : RowKey) (b : List Nat) :
    rowAt (upsertRow rows k b) k = some b := by
  induction rows with
  | nil => simp [upsertRow, rowAt]
  | cons kb rest ih =>
    obtain ⟨k2, b2⟩ := kb
    by_cases h : k2 = k
    · simp [upsertRow, h, rowAt]
    · simp [upsertRow, h, rowAt, ih]

theorem rowAt_upsertRow_ne (rows : Rows) (k k2 : RowKey) (b : List Nat)
    (h : k ≠ k2) : rowAt (upsertRow rows k b) k2 = rowAt rows k2 := by
  induction rows with
  | nil => simp [upsertRow, rowAt, h]
  | cons kb rest ih =>
    obtain ⟨k3, b3⟩ := kb
    by_cases h3 : k3 = k
    · subst h3
      simp [upsertRow, rowAt, h]
    · simp [upsertRow, h3, rowAt, ih]

theorem applyOp_eq_writeRecord (s : Store) (op : Op) :
    applyOp s op = writeRecord s op.inst op.month (op.newRecord s) := by
  cases op <;> rfl

theorem get_stats_writeRecord_self (s : Store) (inst month : String) (r : StatsRecord) :
    get_stats (writeRecord s inst month r) inst month = r := by
  rw [get_stats, writeRecord]
  simp only [rowAt_upsertRow_self, decryptBlob_encryptBlob, decodeRecord_encodeRecord]

theorem get_stats_writeRecord_ne (s : Store) (inst month inst2 month2 : String)
    (r : StatsRecord) (h : (inst, month) ≠ (inst2, month2)) :
    get_stats (writeRecord s inst month r) inst2 month2 = get_stats s inst2 month2 := by
  rw [get_stats, writeRecord]
  simp only [rowAt_upsertRow_ne _ _ _ _ h]
  rfl

theorem get_stats_applyOp_ne (s : Store) (op : Op) (inst month : String)
    (h : op.key ≠ (inst, month)) :
    get_stats (applyOp s op) inst month = get_stats s inst month := by
  rw [applyOp_eq_writeRecord]
  exact get_stats_writeRecord_ne _ _ _ _ _ _ h

theorem get_stats_applyOp_self (s : Store) (op : Op) :
    get_stats (applyOp s op) op.inst op.month = op.newRecord s := by
  rw [applyOp_eq_writeRecord]
  exact get_stats_writeRecord_self _ _ _ _

theorem rowAt_mem (rows : Rows) (k : RowKey) (b : List Nat)
    (h : rowAt rows k = some b) : (k, b) ∈ rows := by
  induction rows with
  | nil => simp [rowAt] at h
  | cons kb rest ih =>
    obtain ⟨k2, b2⟩ := kb
    by_cases h2 : k2 = k
    · subst h2
      simp [rowAt] at h
      simp [h]
    · simp [rowAt, h2] at h
      simp [ih h]

theorem mem_upsertRow (rows : Rows) (k k2 : RowKey) (b b2 : List Nat)
    (h : (k, b) ∈ upsertRow rows k2 b2) : (k = k2 ∧ b = b2) ∨ (k, b) ∈ rows := by
  induction rows with
  | nil =>
    simp [upsertRow] at h
    exact Or.inl h
  | cons kb rest ih =>
    obtain ⟨k3, b3⟩ := kb
    by_cases h3 : k3 = k2
    · subst h3
      simp [upsertRow] at h
      rcases h with h | h
      · exact Or.inl h
      · exact Or.inr (List.mem_cons_of_mem _ h)
    · simp [upsertRow, h3] at h
      rcases h with h | h
      · exact Or.inr (by simp [h])
      · rcases ih h with h2 | h2
        · exact Or.inl h2
        · exact Or.inr (List.mem_cons_of_mem _ h2)

/-- Well-formedness of a store: every persisted blob is a genuine encryption,
under the key derived for the instance of its row, of some plaintext. -/
def wfStore (s : Store) : Prop :=
  ∀ k b, (k, b) ∈ s.rows →
    ∃ nonce pt, b = encryptBlob (derive_key k.1) nonce pt

theorem wfStore_initStore : wfStore initStore := by
  intro k b h
  simp [initStore] at h

theorem wfStore_applyOp (s : Store) (op : Op) (hs : wfStore s) :
    wfStore (applyOp s op) := by
  rw [applyOp_eq_writeRecord]
  intro k b h
  rcases mem_upsertRow _ _ _ _ _ h with ⟨hk, hb⟩ | hmem
  · subst hk hb
    exact ⟨s.ctr, encodeRecord (op.newRecord s), rfl⟩
  · exact hs k b hmem

theorem wfStore_runOps (ops : List Op) : ∀ (s : Store), wfStore s →
    wfStore (runOps ops s) := by
  induction ops with
  | nil => intro s hs; exact hs
  | cons op ops ih =>
    intro s hs
    exact ih (applyOp s op) (wfStore_applyOp s op hs)

theorem upsertRow_cons_eq (k2 : RowKey) (b2 : List Nat) (rest : Rows)
    (k : RowKey) (b : List Nat) (h : k2 = k) :
    upsertRow ((k2, b2) :: rest) k b = (k, b) :: rest := by
  rw [upsertRow, if_pos h]

theorem upsertRow_cons_ne (k2 : RowKey) (b2 : List Nat) (rest : Rows)
    (k : RowKey) (b : List Nat) (h : ¬k2 = k) :
    upsertRow ((k2, b2) :: rest) k b = (k2, b2) :: upsertRow rest k b := by
  rw [upsertRow, if_neg h]

theorem mem_keys_upsertRow (rows : Rows) (k : RowKey) (b : List Nat) (x : RowKey)
    (h : x ∈ (upsertRow rows k b).map Prod.fst) :
    x = k ∨ x ∈ rows.map Prod.fst := by
  induction rows with
  | nil =>
    rw [upsertRow, List.map_cons, List.mem_cons] at h
    rcases h with h | h
    · exact Or.inl h
    · exact absurd h (by simp)
  | cons kb rest ih =>
    obtain ⟨k2, b2⟩ := kb
    by_cases h2 : k2 = k
    · rw [upsertRow_cons_eq _ _ _ _ _ h2, List.map_cons, List.mem_cons] at h
      rcases h with h | h
      · exact Or.inl h
      · exact Or.inr (by rw [List.map_cons, List.mem_cons]; exact Or.inr h)
    · rw [upsertRow_cons_ne _ _ _ _ _ h2, List.map_cons, List.mem_cons] at h
      rcases h with h | h
      · exact Or.inr (by rw [List.map_cons, List.mem_cons]; exact Or.inl h)
      · rcases ih h with h3 | h3
        · exact Or.inl h3
        · exact Or.inr (by rw [List.map_cons, List.mem_cons]; exact Or.inr h3)

theorem nodup_keys_upsertRow (rows : Rows) (k : RowKey) (b : List Nat)
    (h : (rows.map Prod.fst).Nodup) : ((upsertRow rows k b).map Prod.fst).Nodup := by
  induction rows with
  | nil => simp [upsertRow]
  | cons kb rest ih =>
    obtain ⟨k2, b2⟩ := kb
    rw [List.map_cons, List.nodup_cons] at h
    by_cases h2 : k2 = k
    · rw [upsertRow_cons_eq _ _ _ _ _ h2, List.map_cons, List.nodup_cons]
      subst h2
      exact h
    · rw [upsertRow_cons_ne _ _ _ _ _ h2, List.map_cons, List.nodup_cons]
      refine ⟨?_, ih h.2⟩
      intro hmem
      rcases mem_keys_upsertRow rest k b k2 hmem with h3 | h3
      · exact h2 h3
      · exact h.1 h3

/-- Invariant of the backing table: at most one row per (instance, month)
key. -/
def uniqueKeys (s : Store) : Prop := (s.rows.map Prod.fst).Nodup

theorem uniqueKeys_runOps (ops : List Op) : ∀ (s : Store), uniqueKeys s →
    uniqueKeys (runOps ops s) := by
  induction ops with
  | nil => intro s hs; exact hs
  | cons op ops ih =>
    intro s hs
    apply ih
    rw [applyOp_eq_writeRecord]
    exact nodup_keys_upsertRow _ _ _ hs

/-! ## Transaction model for mutating operations

Modelled from the spec: each mutating call is one atomic transaction —
select-for-update-or-absent, compute the new encrypted blob in memory,
upsert, commit.  A storage-level fault (`StorageFailure`) aborts the whole
transaction and surfaces to the caller; the table is then left unchanged. -/

/-- Outcome of one mutating transaction: either a commit with the resulting
store, or a surfaced `StorageFailure` with the store the caller still
observes. -/
inductive TxnResult where
  | committed (s : Store)
  | storageFailure (s : Store)

/-- Modelled from the spec: run one mutating operation as one atomic
transaction; `ioFail` says whether the backing storage faults during this
call. -/
def runTxn (s : Store) (op : Op) (ioFail : Bool) : TxnResult :=
  if ioFail then TxnResult.storageFailure s else TxnResult.committed (applyOp s op)

/-! ## Smart-scheduling helper: `_parse_bool_flag`

Embedded from `module/os/tasks/smart_scheduling_utils.py`.  Python values
reaching the helper are modelled by `PyValue`; `strip().lower()` is embedded
at the character-list level. -/

/-- Dynamic Python value passed to `_parse_bool_flag`: a bool, a string, or
anything else (numbers, `None`, objects — all treated alike by the code). -/
inductive PyValue where
  | pyBool (b : Bool)
  | pyStr (s : String)
  | pyInt (n : Int)
  | pyNone
  | pyOther
deriving DecidableEq

/-- Whitespace as stripped by Python `str.strip()`: the exact set of code
points for which CPython's `Py_UNICODE_ISSPACE` holds — the ASCII whitespace
and separators U+0009–U+000D, U+001C–U+001F and U+0020, plus the Unicode
whitespace U+0085, U+00A0, U+1680, U+2000–U+200A, U+2028, U+2029, U+202F,
U+205F and U+3000. -/
def isPySpace (c : Char) : Bool :=
  (0x09 ≤ c.toNat && c.toNat ≤ 0x0d) || (0x1c ≤ c.toNat && c.toNat ≤ 0x20) ||
  c.toNat = 0x85 || c.toNat = 0xa0 || c.toNat = 0x1680 ||
  (0x2000 ≤ c.toNat && c.toNat ≤ 0x200a) || c.toNat = 0x2028 ||
  c.toNat = 0x2029 || c.toNat = 0x202f || c.toNat = 0x205f || c.toNat = 0x3000

/-- ASCII lower-casing of one character, as Python `str.lower()` acts on the
characters occurring here. -/
def pyLowerChar (c : Char) : Char :=
  if 'A' ≤ c && c ≤ 'Z' then Char.ofNat (c.toNat + 32) else c

/-- Embedded `value.strip().lower()`: strip leading and trailing whitespace,
then lower-case, at the character-list level. -/
def pyStripLower (s : String) : List Char :=
  (((s.data.dropWhile isPySpace).reverse.dropWhile isPySpace).reverse).map pyLowerChar

/-- Embedded membership tests of `_parse_bool_flag` on the already
stripped-and-lower-cased string: the `v in (...)` checks against the true
tuple and then the false tuple. -/
def parse_str_normalized (v : List Char) : Option Bool :=
  if v = "true".data || v = "1".data || v = "yes".data || v = "y".data ||
      v = "on".data then some true
  else if v = "false".data || v = "0".data || v = "no".data || v = "n".data ||
      v = "off".data then some false
  else none

/-- Embedded from `smart_scheduling_utils.py`: `_parse_bool_flag(value)` —
a bool is returned as is; a string is stripped, lower-cased and matched
against the accepted true/false token tuples; everything else is `None`. -/
def parse_bool_flag (value : PyValue) : Option Bool :=
  match value with
  | .pyBool b => some b
  | .pyStr s => parse_str_normalized (pyStripLower s)
  | _ => none

/-- The accepted true tokens of `_parse_bool_flag`. -/
def trueTokens : List (List Char) :=
  ["true".data, "1".data, "yes".data, "y".data, "on".data]

/-- The accepted false tokens of `_parse_bool_flag`. -/
def falseTokens : List (List Char) :=
  ["false".data, "0".data, "no".data, "n".data, "off".data]

/-! ## Coin task mixin: `_try_other_coin_tasks`

Embedded from `module/os/tasks/coin_task_mixin.py`.  The config is modelled
by the enabled-predicate `is_task_enabled`; the observable effect of the
method is the sequence of `task_call`/`task_stop` invocations it performs. -/

/-- The fixed scanning order of the coin supplement tasks
(`CoinTaskMixin.ALL_COIN_TASKS`). -/
def ALL_COIN_TASKS : List String :=
  ["OpsiObscure", "OpsiAbyssal", "OpsiStronghold", "OpsiMeowfficerFarming"]

/-- One observable scheduler invocation performed by the method. -/
inductive SchedCall where
  | task_call (name : String)
  | task_stop
deriving DecidableEq

/-- First index of a name in a task list, `-1` if absent. -/
def indexInList (current : String) : List String → Int
  | [] => -1
  | t :: rest =>
    if t = current then 0
    else
      let r := indexInList current rest
      if r < 0 then -1 else r + 1

/-- Embedded `ALL_COIN_TASKS.index(current_task_name)` with the
`ValueError` handler: the first index holding the name, `-1` if absent. -/
def coinTaskIndex (current : String) : Int :=
  indexInList current ALL_COIN_TASKS

/-- Embedded loop body shared by both `for` loops of
`_try_other_coin_tasks`: walk the given indices, skip the current task, and
call the first enabled one. -/
def scanCoinTasks (enabled : String → Bool) (current : String) :
    List Nat → Option String
  | [] => none
  | i :: rest =>
    let task := ALL_COIN_TASKS.getD i ""
    if task = current then scanCoinTasks enabled current rest
    else if enabled task then some task
    else scanCoinTasks enabled current rest

/-- Embedded from `coin_task_mixin.py`:
`CoinTaskMixin._try_other_coin_tasks(current_task_name)` — try the tasks at
indices after the current one, then the ones before it, calling the first
enabled one; if none is available, call `OpsiHazard1Leveling` and stop.  The
returned list is the sequence of scheduler invocations performed. -/
def try_other_coin_tasks (enabled : String → Bool) (current : String) :
    List SchedCall :=
  let ci := coinTaskIndex current
  let lo := (ci + 1).toNat
  let afterIdxs := List.range' lo (ALL_COIN_TASKS.length - lo)
  match scanCoinTasks enabled current afterIdxs with
  | some t => [SchedCall.task_call t]
  | none =>
    let beforeIdxs := List.range' 0 ci.toNat
    match scanCoinTasks enabled current beforeIdxs with
    | some t => [SchedCall.task_call t]
    | none => [SchedCall.task_call "OpsiHazard1Leveling", SchedCall.task_stop]

/-- Scanning order of the other coin tasks as the claim words it: the tasks
at indices after the current one, then the ones before it, the current task
skipped in both passes (all tasks when the current one is not a coin task). -/
def claimOtherOrder (current : String) : List String :=
  let ci := indexInList current ALL_COIN_TASKS
  if ci < 0 then ALL_COIN_TASKS.filter (fun t => t ≠ current)
  else ((ALL_COIN_TASKS.drop (ci.toNat + 1)) ++
    (ALL_COIN_TASKS.take ci.toNat)).filter (fun t => t ≠ current)

/-- Trace the claim predicts: one `task_call` of the first enabled other
coin task in scanning order, or the `OpsiHazard1Leveling` fallback followed
by `task_stop`. -/
def claimTrace (enabled : String → Bool) (current : String) : List SchedCall :=
  match (claimOtherOrder current).find? enabled with
  | some t => [SchedCall.task_call t]
  | none => [SchedCall.task_call "OpsiHazard1Leveling", SchedCall.task_stop]

/-- Count of `task_call` invocations in a trace. -/
def countTaskCalls (tr : List SchedCall) : Nat :=
  tr.countP (fun c => match c with | .task_call _ => true | .task_stop => false)

theorem try_other_eq_claimTrace (enabled : String → Bool) (current : String) :
    try_other_coin_tasks enabled current = claimTrace enabled current := by
  by_cases e1 : "OpsiObscure" = current
  · subst e1
    cases h2 : enabled "OpsiAbyssal" <;> cases h3 : enabled "OpsiStronghold" <;>
      cases h4 : enabled "OpsiMeowfficerFarming" <;>
      simp [try_other_coin_tasks, claimTrace, claimOtherOrder, coinTaskIndex,
        indexInList, scanCoinTasks, ALL_COIN_TASKS, List.range', h2, h3, h4]
  · by_cases e2 : "OpsiAbyssal" = current
    · subst e2
      cases h1 : enabled "OpsiObscure" <;> cases h3 : enabled "OpsiStronghold" <;>
        cases h4 : enabled "OpsiMeowfficerFarming" <;>
        simp [try_other_coin_tasks, claimTrace, claimOtherOrder, coinTaskIndex,
          indexInList, scanCoinTasks, ALL_COIN_TASKS, List.range', h1, h3, h4]
    · by_cases e3 : "OpsiStronghold" = current
      · subst e3
        cases h1 : enabled "OpsiObscure" <;> cases h2 : enabled "OpsiAbyssal" <;>
          cases h4 : enabled "OpsiMeowfficerFarming" <;>
          simp [try_other_coin_tasks, claimTrace, claimOtherOrder, coinTaskIndex,
            indexInList, scanCoinTasks, ALL_COIN_TASKS, List.range', h1, h2, h4]
      · by_cases e4 : "OpsiMeowfficerFarming" = current
        · subst e4
          cases h1 : enabled "OpsiObscure" <;> cases h2 : enabled "OpsiAbyssal" <;>
            cases h3 : enabled "OpsiStronghold" <;>
            simp [try_other_coin_tasks, claimTrace, claimOtherOrder, coinTaskIndex,
              indexInList, scanCoinTasks, ALL_COIN_TASKS, List.range', h1, h2, h3]
        · cases h1 : enabled "OpsiObscure" <;> cases h2 : enabled "OpsiAbyssal" <;>
            cases h3 : enabled "OpsiStronghold" <;>
            cases h4 : enabled "OpsiMeowfficerFarming" <;>
            simp [try_other_coin_tasks, claimTrace, claimOtherOrder, coinTaskIndex,
              indexInList, scanCoinTasks, ALL_COIN_TASKS, List.range',
              e1, e2, e3, e4, h1, h2, h3, h4]

theorem mem_claimOtherOrder_ne (t current : String) (h : t ∈ claimOtherOrder current) :
    t ≠ current := by
  rw [claimOtherOrder] at h
  by_cases hci : indexInList current ALL_COIN_TASKS < 0
  · rw [if_pos hci] at h
    exact of_decide_eq_true (List.mem_filter.mp h).2
  · rw [if_neg hci] at h
    exact of_decide_eq_true (List.mem_filter.mp h).2

theorem countTaskCalls_claimTrace (enabled : String → Bool) (current : String) :
    countTaskCalls (claimTrace enabled current) = 1 := by
  rw [claimTrace]
  cases hfind : (claimOtherOrder current).find? enabled <;>
    simp [countTaskCalls]

theorem get_stats_eq_empty_of_bad (s : Store) (inst month : String) (blob : List Nat)
    (hrow : rowAt s.rows (inst, month) = some blob)
    (hbad : (decryptBlob (derive_key inst) blob).bind decodeRecord = none) :
    get_stats s inst month = StatsRecord.empty := by
  rw [get_stats, hrow]
  cases hdec : decryptBlob (derive_key inst) blob with
  | none => simp only [hdec]
  | some pt =>
    rw [hdec, Option.some_bind] at hbad
    simp only [hdec, hbad]

theorem two_pow_ne_zero (j : Nat) : 2 ^ j ≠ 0 := by
  have := Nat.pos_pow_of_pos j (show 0 < 2 by omega)
  omega

theorem get_stats_runOps_other_inst (ops : List Op) :
    ∀ (s : Store) (A B month : String), A ≠ B → (∀ op ∈ ops, op.inst = A) →
      get_stats (runOps ops s) B month = get_stats s B month := by
  induction ops with
  | nil => intro s A B month _ _; rfl
  | cons op ops ih =>
    intro s A B month hAB hall
    have hop : op.inst = A := hall op (List.mem_cons_self op ops)
    have hrest : ∀ op2 ∈ ops, op2.inst = A :=
      fun op2 h2 => hall op2 (List.mem_cons_of_mem op h2)
    show get_stats (runOps ops (applyOp s op)) B month = get_stats s B month
    rw [ih (applyOp s op) A B month hAB hrest]
    apply get_stats_applyOp_ne
    rw [Op.key]
    intro hk
    have : op.inst = B := congrArg Prod.fst hk
    rw [hop] at this
    exact hAB this

/-- Accumulator consistency of one record: the AP accumulator equals the sum
of the entry amounts. -/
def apConsistent (r : StatsRecord) : Prop :=
  r.akashi_ap = (r.akashi_ap_entries.map StatsEntry.amount).sum

theorem apConsistent_empty : apConsistent StatsRecord.empty := rfl

theorem apConsistent_newRecord (s : Store) (op : Op)
    (h : apConsistent (get_stats s op.inst op.month)) :
    apConsistent (op.newRecord s) := by
  cases op with
  | incBattle i m => exact h
  | addAp i m amount base cnt source ts =>
    rw [apConsistent] at h ⊢
    simp only [Op.newRecord, List.map_append, List.sum_append]
    simp only [Op.inst, Op.month] at h
    rw [h]
    simp [List.sum_cons]

theorem apConsistent_runOps (ops : List Op) :
    ∀ (s : Store), (∀ i m, apConsistent (get_stats s i m)) →
      ∀ i m, apConsistent (get_stats (runOps ops s) i m) := by
  induction ops with
  | nil => intro s hs; exact hs
  | cons op ops ih =>
    intro s hs
    apply ih
    intro i m
    by_cases hk : op.key = (i, m)
    · have hi : op.inst = i := congrArg Prod.fst hk
      have hm : op.month = m := congrArg Prod.snd hk
      rw [← hi, ← hm, get_stats_applyOp_self]
      exact apConsistent_newRecord s op (hs op.inst op.month)
    · rw [get_stats_applyOp_ne s op i m hk]
      exact hs i m

theorem get_stats_initStore (inst month : String) :
    get_stats initStore inst month = StatsRecord.empty := rfl

theorem get_stats_runOps_untouched (ops : List Op) :
    ∀ (s : Store) (inst month : String),
      get_stats s inst month = StatsRecord.empty →
      (∀ op ∈ ops, op.key ≠ (inst, month)) →
      get_stats (runOps ops s) inst month = StatsRecord.empty := by
  induction ops with
  | nil => intro s inst month hs _; exact hs
  | cons op ops ih =>
    intro s inst month hs hall
    show get_stats (runOps ops (applyOp s op)) inst month = StatsRecord.empty
    apply ih
    · rw [get_stats_applyOp_ne s op inst month (hall op (List.mem_cons_self op ops))]
      exact hs
    · exact fun op2 h2 => hall op2 (List.mem_cons_of_mem op h2)

theorem encryptBlob_layout (key nonce : Nat) (pt : List Nat) :
    ∃ header ct tag, encryptBlob key nonce pt = header ++ ct ++ tag ∧
      header.length = 32 ∧ tag.length = ct.length := by
  refine ⟨nonceHeader nonce, maskBytes key (nonceHeader nonce) 0 pt,
    maskBytes key (nonceHeader nonce) (maskBytes key (nonceHeader nonce) 0 pt).length
      (maskBytes key (nonceHeader nonce) 0 pt), rfl, length_nonceHeader nonce, ?_⟩
  exact length_maskBytes _ _ _ _

/-- Store state of the verification scenario after instance 1's two
mutations (battle increment, then one 120-AP entry; the in-model timestamp
of the entry is 0). -/
def scenarioStore2 : Store :=
  add_akashi_ap_entry
    (increment_battle_count initStore "test_instance_1" "2026-02")
    "test_instance_1" "2026-02" 120 60 2 "akashi" 0

/-- Scenario state after instance 2 additionally increments its own battle
count. -/
def scenarioStore3 : Store :=
  increment_battle_count scenarioStore2 "test_instance_2" "2026-02"

/-! ## Claim theorems -/

/-- C1: for every (instance, month) key whose stored row fails integrity
verification or decoding — including any single bit flipped anywhere in the
ciphertext/tag region of the stored blob — `get_stats` returns the
zero-valued empty record; being a total function it raises nothing, so
neither `AuthenticationFailure` nor `MalformedRecord` reaches the caller of
a read. -/
theorem claim1_tamper_fail_closed :
    (∀ (s : Store) (inst month : String) (blob : List Nat),
        rowAt s.rows (inst, month) = some blob →
        (decryptBlob (derive_key inst) blob).bind decodeRecord = none →
        get_stats s inst month = StatsRecord.empty) ∧
    (∀ (ops : List Op) (inst month : String) (blob : List Nat) (i j : Nat),
        rowAt (runOps ops initStore).rows (inst, month) = some blob →
        32 ≤ i → i < blob.length → j < 8 →
        get_stats (setRowBlob (runOps ops initStore) inst month (flipBit blob i j))
          inst month = StatsRecord.empty) := by
  constructor
  · exact fun s inst month blob h1 h2 => get_stats_eq_empty_of_bad s inst month blob h1 h2
  · intro ops inst month blob i j hrow h32 hi hj
    obtain ⟨nonce, pt, hb⟩ :=
      wfStore_runOps ops initStore wfStore_initStore (inst, month) blob
        (rowAt_mem _ _ _ hrow)
    subst hb
    apply get_stats_eq_empty_of_bad _ inst month _ (rowAt_upsertRow_self _ _ _)
    rw [flipBit, decryptBlob_set_ne _ _ _ _ _ h32 hi (two_pow_ne_zero j)]
    rfl

theorem claim1_witness :
    get_stats
      (setRowBlob (runOps [Op.incBattle "a" "2026-02"] initStore) "a" "2026-02"
        (flipBit (encryptBlob (derive_key "a") 0
          (encodeRecord { battle_count := 1, akashi_ap := 0, akashi_ap_entries := [] }))
          32 0))
      "a" "2026-02" = StatsRecord.empty :=
  claim1_tamper_fail_closed.2 [Op.incBattle "a" "2026-02"] "a" "2026-02"
    (encryptBlob (derive_key "a") 0
      (encodeRecord { battle_count := 1, akashi_ap := 0, akashi_ap_entries := [] }))
    32 0 (by decide) (by decide) (by decide) (by decide)

/-- C2: starting from the empty store, one battle increment and one
`add_akashi_ap_entry(amount=120, base=60, count=2, source='akashi')` under
instance `test_instance_1` make `get_stats("test_instance_1", "2026-02")`
read battle_count 1, akashi_ap 120 and exactly one entry. -/
theorem claim2_scenario_instance1 :
    (get_stats scenarioStore2 "test_instance_1" "2026-02").battle_count = 1 ∧
    (get_stats scenarioStore2 "test_instance_1" "2026-02").akashi_ap = 120 ∧
    (get_stats scenarioStore2 "test_instance_1" "2026-02").akashi_ap_entries.length = 1 := by
  decide

/-- C3: mutations run under one instance never change what any other
instance reads, for all months; in the concrete scenario, instance 2's own
increment shows battle_count 1 with akashi_ap 0 and leaves instance 1's
stats untouched. -/
theorem claim3_instance_isolation :
    (∀ (s : Store) (A B month : String) (ops : List Op), A ≠ B →
        (∀ op ∈ ops, op.inst = A) →
        get_stats (runOps ops s) B month = get_stats s B month) ∧
    ((get_stats scenarioStore3 "test_instance_2" "2026-02").battle_count = 1 ∧
     (get_stats scenarioStore3 "test_instance_2" "2026-02").akashi_ap = 0 ∧
     get_stats scenarioStore3 "test_instance_1" "2026-02" =
       get_stats scenarioStore2 "test_instance_1" "2026-02") := by
  constructor
  · intro s A B month ops hAB hops
    exact get_stats_runOps_other_inst ops s A B month hAB hops
  · decide

theorem claim3_witness :
    get_stats (runOps [Op.incBattle "a" "2026-02"] initStore) "b" "2026-02" =
      get_stats initStore "b" "2026-02" :=
  claim3_instance_isolation.1 initStore "a" "b" "2026-02"
    [Op.incBattle "a" "2026-02"] (by decide) (by decide)

/-- C4: in every store reachable by a sequence of mutations, the
`akashi_ap` accumulator of every (instance, month) record equals the sum of
the `amount` fields over its `akashi_ap_entries` (each append updates both
within the one record persisted by its write). -/
theorem claim4_accumulator_consistency (ops : List Op) (inst month : String) :
    (get_stats (runOps ops initStore) inst month).akashi_ap =
      ((get_stats (runOps ops initStore) inst month).akashi_ap_entries.map
        StatsEntry.amount).sum :=
  apConsistent_runOps ops initStore (fun _ _ => apConsistent_empty) inst month

/-- C5: for every record reachable by a sequence of mutations and the key
derived for its instance, decode after decrypt after encrypt after encode
returns exactly the original record. -/
theorem claim5_roundtrip (ops : List Op) (inst month : String) (nonce : Nat) :
    (decryptBlob (derive_key inst)
      (encryptBlob (derive_key inst) nonce
        (encodeRecord (get_stats (runOps ops initStore) inst month)))).bind
      decodeRecord = some (get_stats (runOps ops initStore) inst month) := by
  rw [decryptBlob_encryptBlob, Option.some_bind, decodeRecord_encodeRecord]

/-- C6: `get_stats` on a (instance, month) key no mutation ever targeted
returns the empty record, for all instance and month strings. -/
theorem claim6_idempotent_absence (ops : List Op) (inst month : String)
    (h : ∀ op ∈ ops, op.key ≠ (inst, month)) :
    get_stats (runOps ops initStore) inst month = StatsRecord.empty :=
  get_stats_runOps_untouched ops initStore inst month rfl h

theorem claim6_witness :
    get_stats (runOps [Op.incBattle "a" "2026-02"] initStore) "b" "2026-02" =
      StatsRecord.empty :=
  claim6_idempotent_absence [Op.incBattle "a" "2026-02"] "b" "2026-02" (by decide)

/-- C7: a mutating operation run as one transaction either commits fully —
the targeted row then holds exactly the freshly encrypted read-modify
result, every other row is untouched, and reading the key back yields the
new record — or surfaces a `StorageFailure` with the store the caller holds
unchanged; no partially applied update exists. -/
theorem claim7_atomic_mutations (s : Store) (op : Op) (f : Bool) :
    (f = false → runTxn s op f = TxnResult.committed (applyOp s op) ∧
      rowAt (applyOp s op).rows op.key =
        some (encryptBlob (derive_key op.inst) s.ctr (encodeRecord (op.newRecord s))) ∧
      get_stats (applyOp s op) op.inst op.month = op.newRecord s ∧
      ∀ k, k ≠ op.key → rowAt (applyOp s op).rows k = rowAt s.rows k) ∧
    (f = true → runTxn s op f = TxnResult.storageFailure s) := by
  constructor
  · intro hf
    subst hf
    refine ⟨rfl, ?_, get_stats_applyOp_self s op, ?_⟩
    · rw [applyOp_eq_writeRecord, writeRecord, Op.key]
      exact rowAt_upsertRow_self _ _ _
    · intro k hk
      rw [applyOp_eq_writeRecord, writeRecord]
      exact rowAt_upsertRow_ne _ _ _ _ (by rw [← Op.key]; exact fun h => hk h.symm)
  · intro hf
    subst hf
    rfl

theorem claim7_witness :
    rowAt (applyOp initStore (Op.incBattle "a" "2026-02")).rows ("b", "2026-02") =
      rowAt initStore.rows ("b", "2026-02") :=
  ((claim7_atomic_mutations initStore (Op.incBattle "a" "2026-02") false).1 rfl).2.2.2
    ("b", "2026-02") (by decide)

/-- C8: every reachable store keeps at most one row per (instance, month)
key, and every persisted blob is a 32-byte header of salt/nonce material
followed by the ciphertext and its authentication tag. -/
theorem claim8_persisted_layout (ops : List Op) :
    uniqueKeys (runOps ops initStore) ∧
    ∀ k blob, (k, blob) ∈ (runOps ops initStore).rows →
      ∃ header ct tag, blob = header ++ ct ++ tag ∧ header.length = 32 ∧
        tag.length = ct.length := by
  constructor
  · exact uniqueKeys_runOps ops initStore (by simp [uniqueKeys, initStore])
  · intro k blob hmem
    obtain ⟨nonce, pt, hb⟩ :=
      wfStore_runOps ops initStore wfStore_initStore k blob hmem
    subst hb
    exact encryptBlob_layout _ _ _

theorem claim8_witness :
    ∃ header ct tag,
      encryptBlob (derive_key "a") 0
        (encodeRecord { battle_count := 1, akashi_ap := 0, akashi_ap_entries := [] }) =
        header ++ ct ++ tag ∧ header.length = 32 ∧ tag.length = ct.length :=
  (claim8_persisted_layout [Op.incBattle "a" "2026-02"]).2 ("a", "2026-02")
    (encryptBlob (derive_key "a") 0
      (encodeRecord { battle_count := 1, akashi_ap := 0, akashi_ap_entries := [] }))
    (by decide)

/-- C9: `_parse_bool_flag` returns a bool input unchanged; returns true for
strings whose stripped lower-cased form is one of the accepted true tokens,
false for the accepted false tokens; and returns `None` for every other
input — unrecognized strings as well as non-bool non-string values — being a
total function it never raises. -/
theorem claim9_parse_bool_flag_spec :
    (∀ b, parse_bool_flag (.pyBool b) = some b) ∧
    (∀ s, pyStripLower s ∈ trueTokens → parse_bool_flag (.pyStr s) = some true) ∧
    (∀ s, pyStripLower s ∈ falseTokens → parse_bool_flag (.pyStr s) = some false) ∧
    (∀ s, pyStripLower s ∉ trueTokens → pyStripLower s ∉ falseTokens →
      parse_bool_flag (.pyStr s) = none) ∧
    (∀ n, parse_bool_flag (.pyInt n) = none) ∧
    parse_bool_flag .pyNone = none ∧
    parse_bool_flag .pyOther = none := by
  refine ⟨fun b => rfl, ?_, ?_, ?_, fun n => rfl, rfl, rfl⟩
  · intro s h
    show parse_str_normalized (pyStripLower s) = some true
    simp only [trueTokens, List.mem_cons, List.not_mem_nil, or_false] at h
    rcases h with h | h | h | h | h <;> rw [h] <;> decide
  · intro s h
    show parse_str_normalized (pyStripLower s) = some false
    simp only [falseTokens, List.mem_cons, List.not_mem_nil, or_false] at h
    rcases h with h | h | h | h | h <;> rw [h] <;> decide
  · intro s h1 h2
    show parse_str_normalized (pyStripLower s) = none
    simp only [trueTokens, List.mem_cons, List.not_mem_nil, or_false, not_or] at h1
    simp only [falseTokens, List.mem_cons, List.not_mem_nil, or_false, not_or] at h2
    obtain ⟨a1, a2, a3, a4, a5⟩ := h1
    obtain ⟨b1, b2, b3, b4, b5⟩ := h2
    rw [parse_str_normalized]
    rw [if_neg (by simp [a1, a2, a3, a4, a5]), if_neg (by simp [b1, b2, b3, b4, b5])]

theorem claim9_witness :
    parse_bool_flag (.pyStr " TRUE ") = some true ∧
    parse_bool_flag (.pyStr "oFF") = some false ∧
    parse_bool_flag (.pyStr "maybe") = none :=
  ⟨claim9_parse_bool_flag_spec.2.1 " TRUE " (by decide),
   claim9_parse_bool_flag_spec.2.2.1 "oFF" (by decide),
   claim9_parse_bool_flag_spec.2.2.2.1 "maybe" (by decide) (by decide)⟩

/-- C10 counterexample: invoked with current task name `OpsiHazard1Leveling`
and no coin task enabled, `_try_other_coin_tasks` passes exactly the current
task's name to `task_call` — refuting that it never does so. -/
theorem claim10_counterexample :
    SchedCall.task_call "OpsiHazard1Leveling" ∈
      try_other_coin_tasks (fun _ => false) "OpsiHazard1Leveling" := by
  decide

/-- C10 (amended): `_try_other_coin_tasks` calls `task_call` at most once —
with the first enabled coin task found scanning indices after the current
task then the ones before it, the current task skipped in both passes, or
with the `OpsiHazard1Leveling` fallback (followed by `task_stop`) when no
other coin task is enabled; every name passed to `task_call` is therefore
either the fallback `OpsiHazard1Leveling` or an enabled coin task different
from the current one. -/
theorem claim10_try_other_coin_tasks_spec (enabled : String → Bool) (current : String) :
    try_other_coin_tasks enabled current = claimTrace enabled current ∧
    countTaskCalls (try_other_coin_tasks enabled current) ≤ 1 ∧
    ∀ t, SchedCall.task_call t ∈ try_other_coin_tasks enabled current →
      t = "OpsiHazard1Leveling" ∨ (t ≠ current ∧ enabled t = true) := by
  have heq := try_other_eq_claimTrace enabled current
  refine ⟨heq, ?_, ?_⟩
  · rw [heq, countTaskCalls_claimTrace]
  · intro t ht
    rw [heq, claimTrace] at ht
    cases hfind : (claimOtherOrder current).find? enabled with
    | some t2 =>
      rw [hfind] at ht
      have ht2 : t = t2 := by
        rcases List.mem_singleton.mp ht with h
        injection h
      subst ht2
      exact Or.inr ⟨mem_claimOtherOrder_ne _ _ (List.mem_of_find?_eq_some hfind),
        List.find?_some hfind⟩
    | none =>
      rw [hfind] at ht
      rcases List.mem_cons.mp ht with h | h
      · exact Or.inl (by injection h)
      · rcases List.mem_singleton.mp h with h2
        exact absurd h2 (by simp)

theorem claim10_witness :
    "OpsiAbyssal" = "OpsiHazard1Leveling" ∨
      ("OpsiAbyssal" ≠ "OpsiObscure" ∧
        (fun _ => true : String → Bool) "OpsiAbyssal" = true) :=
  (claim10_try_other_coin_tasks_spec (fun _ => true) "OpsiObscure").2.2 "OpsiAbyssal"
    (by decide)
